import Mathlib

/-!
Verification of the superposition-memory library
(`src/models/superposition_memory.py`).

The Python module stores a mapping from hypothesis labels to complex
amplitudes (a `dict`, which preserves insertion order) and exposes
`add`, `normalise`, `collapse`, `as_ranked_list` and `reset`.

Shallow embedding conventions:
* complex numbers become the two-field structure `Cplx α` with explicit
  real/imaginary components and the conjugate/multiplication used by the
  source (`(amp.conjugate() * amp).real`);
* the insertion-ordered `dict` becomes an association list
  `List (String × Cplx α)` whose operations mirror the `dict` semantics:
  updating an existing key keeps its position, a fresh key is appended;
* Python floats are idealised as elements of a linear ordered field; the
  operations that need no square root are kept parametric (instantiated
  at `ℚ` for executable checks), while `normalise`, which divides by
  `total ** 0.5`, is stated over `ℝ` with `Real.sqrt`;
* `list.sort(key=..., reverse=True)` is Python's stable sort; the output
  of a stable descending sort is uniquely determined (sorted by the key,
  equal-key elements in original relative order), so it is embedded as
  the stable descending insertion sort `isortDesc`;
* a method that raises becomes a function returning the error through an
  `Option`; `normalise`, which mutates, additionally returns the
  post-call state (the raise happens before any write, so on the error
  branch the returned state is the input state, exactly as in the code).
-/

namespace HNQA

/-- Complex numbers with explicit components, as used by the Python code
through the `complex` builtin. -/
structure Cplx (α : Type) where
  re : α
  im : α
deriving DecidableEq

namespace Cplx

variable {α : Type} [LinearOrderedField α]

/-- The conjugate, `amp.conjugate()`. -/
def conj (a : Cplx α) : Cplx α := ⟨a.re, -a.im⟩

/-- Complex multiplication. -/
def mul (a b : Cplx α) : Cplx α :=
  ⟨a.re * b.re - a.im * b.im, a.re * b.im + a.im * b.re⟩

/-- Complex addition, used by `add` when a label is already present. -/
def add (a b : Cplx α) : Cplx α := ⟨a.re + b.re, a.im + b.im⟩

/-- The zero amplitude. -/
def zero : Cplx α := ⟨0, 0⟩

/-- Division of a complex amplitude by a real scalar
(`amplitude / scale` in `normalise`). -/
def divR (a : Cplx α) (s : α) : Cplx α := ⟨a.re / s, a.im / s⟩

/-- Multiplication of a complex amplitude by a real scalar. -/
def smulR (c : α) (a : Cplx α) : Cplx α := ⟨c * a.re, c * a.im⟩

instance : Zero (Cplx α) := ⟨Cplx.zero⟩

instance : Add (Cplx α) := ⟨Cplx.add⟩

instance : AddCommMonoid (Cplx α) where
  add_assoc a b c := by
    show Cplx.add (Cplx.add a b) c = Cplx.add a (Cplx.add b c)
    simp [Cplx.add, add_assoc]
  zero_add a := by
    show Cplx.add Cplx.zero a = a
    simp [Cplx.add, Cplx.zero]
  add_zero a := by
    show Cplx.add a Cplx.zero = a
    simp [Cplx.add, Cplx.zero]
  add_comm a b := by
    show Cplx.add a b = Cplx.add b a
    simp [Cplx.add, add_comm]
  nsmul := nsmulRec

/-- The expression `(amp.conjugate() * amp).real`, the Born-rule probability mass the
source computes in `Hypothesis.probability`, `normalise` and `collapse`. -/
def probMass (a : Cplx α) : α := (a.conj.mul a).re

theorem probMass_eq (a : Cplx α) : probMass a = a.re ^ 2 + a.im ^ 2 := by
  simp [probMass, conj, mul]; ring

theorem probMass_nonneg (a : Cplx α) : 0 ≤ probMass a := by
  rw [probMass_eq]
  positivity

theorem probMass_eq_zero_iff (a : Cplx α) : probMass a = 0 ↔ a = Cplx.zero := by
  rw [probMass_eq]
  constructor
  · intro h
    have h1 : a.re ^ 2 = 0 ∧ a.im ^ 2 = 0 := by
      constructor
      · nlinarith [sq_nonneg a.re, sq_nonneg a.im]
      · nlinarith [sq_nonneg a.re, sq_nonneg a.im]
    have hre : a.re = 0 := by
      have := h1.1; nlinarith [sq_nonneg a.re]
    have him : a.im = 0 := by
      have := h1.2; nlinarith [sq_nonneg a.im]
    cases a
    simp_all [Cplx.zero]
  · intro h
    subst h
    simp [Cplx.zero]

theorem add_def (a b : Cplx α) : a + b = Cplx.add a b := rfl

theorem zero_def : (0 : Cplx α) = Cplx.zero := rfl

theorem probMass_divR (a : Cplx α) (s : α) :
    probMass (divR a s) = probMass a / s ^ 2 := by
  simp [probMass_eq, divR]
  ring

theorem probMass_smulR (c : α) (a : Cplx α) :
    probMass (smulR c a) = c ^ 2 * probMass a := by
  simp [probMass_eq, smulR]
  ring

theorem divR_eq_smulR (a : Cplx α) (s : α) : divR a s = smulR s⁻¹ a := by
  simp [divR, smulR, div_eq_inv_mul]

end Cplx

/-- The `Hypothesis` dataclass: a label together with a complex amplitude. -/
structure Hypothesis (α : Type) where
  label : String
  amplitude : Cplx α
deriving DecidableEq

/-- The derived `probability` property of `Hypothesis`:
`(self.amplitude.conjugate() * self.amplitude).real`. -/
def Hypothesis.probability {α : Type} [LinearOrderedField α]
    (h : Hypothesis α) : α := Cplx.probMass h.amplitude

/-- The state of `SuperpositionMemory`: the insertion-ordered mapping
`hypotheses` from label to amplitude, embedded as an association list. -/
abbrev Mem (α : Type) := List (String × Cplx α)

/-- First-match lookup in an association list, the semantics of reading a
Python `dict` whose keys are unique. -/
def lookupA {β : Type} (l : String) : List (String × β) → Option β
  | [] => none
  | (k, v) :: rest => if k = l then some v else lookupA l rest

namespace SuperpositionMemory

variable {α : Type} [LinearOrderedField α]

/-- The method `add(label, amplitude)`: if the label is present the amplitudes are
summed in place (a `dict` update keeps the key position), otherwise a new
entry is appended (a fresh `dict` key goes last). -/
def add (label : String) (amplitude : Cplx α) : Mem α → Mem α
  | [] => [(label, amplitude)]
  | (k, b) :: rest =>
      if k = label then (k, Cplx.add b amplitude) :: rest
      else (k, b) :: add label amplitude rest

/-- A sequence of `add` calls applied in order. -/
def applyAdds (m : Mem α) (adds : List (String × Cplx α)) : Mem α :=
  adds.foldl (fun acc p => add p.1 p.2 acc) m

/-- The `total_probability` value in `normalise`: the sum over stored amplitudes of
`(amp.conjugate() * amp).real`. -/
def totalProbability (m : Mem α) : α :=
  (m.map fun p => Cplx.probMass p.2).sum

/-- The method `normalise()`: raises (first component) when the total probability
mass is zero, leaving the state unchanged; otherwise divides every stored
amplitude by `total_probability ** 0.5`.  Stated over `ℝ` because of the
square root. -/
noncomputable def normalise (m : Mem ℝ) : Option String × Mem ℝ :=
  let total := totalProbability m
  if total = 0 then
    (some ("Cannot normalise an empty or zero-amplitude state"), m)
  else
    (none, m.map fun p => (p.1, Cplx.divR p.2 (Real.sqrt total)))

/-- One step of the dict comprehension
`{label: weight for label, weight in context}`: assigning to an existing
key keeps its position and replaces the value, a fresh key is appended. -/
def dictInsert {β : Type} (k : String) (v : β) :
    List (String × β) → List (String × β)
  | [] => [(k, v)]
  | (k', v') :: rest =>
      if k' = k then (k', v) :: rest
      else (k', v') :: dictInsert k v rest

/-- The comprehension `weight_map = \x7blabel: weight for label, weight in context\x7d`. -/
def buildWeightMap {β : Type} (ctx : List (String × β)) : List (String × β) :=
  ctx.foldl (fun d p => dictInsert p.1 p.2 d) []

/-- The default lookup `weight_map.get(label, 0.0)`. -/
def ctxWeight (ctx : List (String × α)) (label : String) : α :=
  (lookupA label (buildWeightMap ctx)).getD 0

/-- The score `probability * (1.0 + weight)` computed in `collapse` for a
stored entry. -/
def scoreOf (ctx : List (String × α)) (p : String × Cplx α) : α :=
  Cplx.probMass p.2 * (1 + ctxWeight ctx p.1)

/-- The `scored` list built by `collapse`, in mapping-insertion order. -/
def scoredList (m : Mem α) (ctx : List (String × α)) :
    List (α × Hypothesis α) :=
  m.map fun p => (scoreOf ctx p, ⟨p.1, p.2⟩)

/-- Stable descending insertion: `x` is placed before the first element
whose key is not larger, so among equal keys the earlier element stays
first. -/
def insertDesc {β : Type} (key : β → α) (x : β) : List β → List β
  | [] => [x]
  | y :: ys => if key x < key y then y :: insertDesc key x ys else x :: y :: ys

/-- Stable descending sort, the semantics of Python's stable
`list.sort(key=..., reverse=True)`: sorted by non-increasing key, and
equal-key elements keep their original relative order (these two
conditions determine the output uniquely). -/
def isortDesc {β : Type} (key : β → α) : List β → List β
  | [] => []
  | x :: xs => insertDesc key x (isortDesc key xs)

/-- The method `collapse(context)`: raises on an empty mapping, otherwise scores
every stored hypothesis, sorts by descending score (stable) and returns
the first element (`scored[0][1]`). -/
def collapse (m : Mem α) (ctx : List (String × α)) : Option (Hypothesis α) :=
  if m.isEmpty then none
  else ((isortDesc Prod.fst (scoredList m ctx)).head?).map Prod.snd

/-- The method `collapse` together with the post-call state: the method body only
reads `self.hypotheses` (it writes only the local `scored` list), so the
mapping after the call is the mapping before it. -/
def collapseRun (m : Mem α) (ctx : List (String × α)) :
    Option (Hypothesis α) × Mem α :=
  (collapse m ctx, m)

/-- The method `as_ranked_list()`: all stored hypotheses sorted by descending
probability with Python's stable sort. -/
def as_ranked_list (m : Mem α) : List (Hypothesis α) :=
  isortDesc Hypothesis.probability (m.map fun p => ⟨p.1, p.2⟩)

/-- The method `reset()`: clears the mapping. -/
def reset (_ : Mem α) : Mem α := []

/-- Modelled from the spec: the reference tie-break description, a scan
in mapping-insertion order keeping the first-seen maximum under a strict
greater-than comparison.  This is the comparison definition for the
spec's claim that the scan agrees with the stable descending sort; the
code itself uses the sort. -/
def scanFirstMax {β : Type} (key : β → α) : List β → Option β
  | [] => none
  | x :: xs => some (xs.foldl (fun b y => if key b < key y then y else b) x)

/-! ### Lemmas about the stable descending insertion sort -/

theorem insertDesc_perm {β : Type} (key : β → α) (x : β) (l : List β) :
    List.Perm (insertDesc key x l) (x :: l) := by
  induction l with
  | nil => simp [insertDesc]
  | cons y ys ih =>
      by_cases h : key x < key y
      · simp only [insertDesc, if_pos h]
        exact (ih.cons y).trans (List.Perm.swap x y ys)
      · simp [insertDesc, if_neg h]

theorem isortDesc_perm {β : Type} (key : β → α) (l : List β) :
    List.Perm (isortDesc key l) l := by
  induction l with
  | nil => simp [isortDesc]
  | cons x xs ih =>
      exact (insertDesc_perm key x (isortDesc key xs)).trans (ih.cons x)

theorem mem_insertDesc {β : Type} (key : β → α) (x : β) (l : List β) (w : β) :
    w ∈ insertDesc key x l ↔ w = x ∨ w ∈ l := by
  rw [(insertDesc_perm key x l).mem_iff]
  simp

theorem pairwise_insertDesc {β : Type} (key : β → α) (x : β) (l : List β)
    (h : List.Pairwise (fun a b => key b ≤ key a) l) :
    List.Pairwise (fun a b => key b ≤ key a) (insertDesc key x l) := by
  induction l with
  | nil => simp [insertDesc]
  | cons y ys ih =>
      rcases List.pairwise_cons.mp h with ⟨hy, hys⟩
      by_cases hxy : key x < key y
      · simp only [insertDesc, if_pos hxy]
        refine List.pairwise_cons.mpr ⟨?_, ih hys⟩
        intro w hw
        rcases (mem_insertDesc key x ys w).mp hw with hwx | hwys
        · subst hwx; exact le_of_lt hxy
        · exact hy w hwys
      · simp only [insertDesc, if_neg hxy]
        refine List.pairwise_cons.mpr ⟨?_, h⟩
        intro w hw
        rcases List.mem_cons.mp hw with hwy | hwys
        · subst hwy; exact not_lt.mp hxy
        · exact le_trans (hy w hwys) (not_lt.mp hxy)

theorem isortDesc_sorted {β : Type} (key : β → α) (l : List β) :
    List.Pairwise (fun a b => key b ≤ key a) (isortDesc key l) := by
  induction l with
  | nil => simp [isortDesc]
  | cons x xs ih => exact pairwise_insertDesc key x (isortDesc key xs) ih

theorem insertDesc_nil {β : Type} (key : β → α) (x : β) :
    insertDesc key x [] = [x] := rfl

theorem insertDesc_cons {β : Type} (key : β → α) (x y : β) (ys : List β) :
    insertDesc key x (y :: ys) =
      if key x < key y then y :: insertDesc key x ys else x :: y :: ys := rfl

theorem filter_insertDesc {β : Type} (key : β → α) (x : β) (l : List β)
    (c : α) :
    (insertDesc key x l).filter (fun y => decide (key y = c)) =
      (if key x = c then [x] else []) ++ l.filter (fun y => decide (key y = c)) := by
  induction l with
  | nil =>
      rw [insertDesc_nil]
      by_cases hx : key x = c <;> simp [List.filter, hx]
  | cons y ys ih =>
      rw [insertDesc_cons]
      by_cases hxy : key x < key y
      · rw [if_pos hxy]
        have hyne : ¬ (key x = c ∧ key y = c) := by
          rintro ⟨h1, h2⟩; rw [h1, h2] at hxy; exact lt_irrefl c hxy
        simp only [List.filter_cons, ih]
        by_cases hy : key y = c
        · have hx : ¬ key x = c := fun h => hyne ⟨h, hy⟩
          simp [hx, hy]
        · by_cases hx : key x = c <;> simp [hx, hy]
      · rw [if_neg hxy]
        simp only [List.filter_cons]
        by_cases hx : key x = c <;> by_cases hy : key y = c <;> simp [hx, hy]

theorem filter_isortDesc {β : Type} (key : β → α) (l : List β) (c : α) :
    (isortDesc key l).filter (fun y => decide (key y = c)) =
      l.filter (fun y => decide (key y = c)) := by
  induction l with
  | nil => simp [isortDesc]
  | cons x xs ih =>
      rw [isortDesc, filter_insertDesc key x _ c, ih]
      by_cases hx : key x = c <;> simp [List.filter, hx]

theorem head_insertDesc_cons {β : Type} (key : β → α) (x y : β) (ys : List β) :
    (insertDesc key x (y :: ys)).head? =
      some (if key x < key y then y else x) := by
  by_cases h : key x < key y <;> simp [insertDesc, h]

theorem head_insertDesc_insertDesc {β : Type} (key : β → α) (x y : β)
    (s : List β) :
    (insertDesc key x (insertDesc key y s)).head? =
      (insertDesc key (if key x < key y then y else x) s).head? := by
  cases s with
  | nil =>
      rw [insertDesc_nil, insertDesc_nil, head_insertDesc_cons]
      simp
  | cons h t =>
      rw [insertDesc_cons key y h t]
      by_cases hyh : key y < key h
      · rw [if_pos hyh, head_insertDesc_cons, head_insertDesc_cons]
        by_cases hxy : key x < key y
        · rw [if_pos hxy, if_pos hyh, if_pos (lt_trans hxy hyh)]
        · rw [if_neg hxy]
      · rw [if_neg hyh, head_insertDesc_cons, head_insertDesc_cons]
        by_cases hxy : key x < key y
        · rw [if_pos hxy, if_neg hyh]
        · rw [if_neg hxy,
            if_neg (fun hlt => hyh (lt_of_le_of_lt (not_lt.mp hxy) hlt))]

theorem head_isortDesc_cons {β : Type} (key : β → α) (xs : List β) :
    ∀ x : β, (isortDesc key (x :: xs)).head? =
      some (xs.foldl (fun b y => if key b < key y then y else b) x) := by
  induction xs with
  | nil => intro x; simp [isortDesc, insertDesc]
  | cons y ys ih =>
      intro x
      show (insertDesc key x (insertDesc key y (isortDesc key ys))).head? = _
      rw [head_insertDesc_insertDesc]
      have := ih (if key x < key y then y else x)
      rw [isortDesc] at this
      rw [this]
      simp [List.foldl]

theorem head_isortDesc_eq_scanFirstMax {β : Type} (key : β → α) (l : List β) :
    (isortDesc key l).head? = scanFirstMax key l := by
  cases l with
  | nil => simp [isortDesc, scanFirstMax]
  | cons x xs => rw [head_isortDesc_cons, scanFirstMax]

theorem foldl_scan_spec {β : Type} (key : β → α) :
    ∀ (l : List β) (x : β),
      (l.foldl (fun b y => if key b < key y then y else b) x = x ∧
        ∀ w ∈ l, key w ≤ key x) ∨
      (∃ l1 z l2, l = l1 ++ z :: l2 ∧
        l.foldl (fun b y => if key b < key y then y else b) x = z ∧
        key x < key z ∧ (∀ w ∈ l1, key w < key z) ∧ ∀ w ∈ l, key w ≤ key z) := by
  intro l
  induction l with
  | nil => intro x; left; exact ⟨rfl, by simp⟩
  | cons y ys ih =>
      intro x
      rw [List.foldl_cons]
      by_cases hxy : key x < key y
      · rw [if_pos hxy]
        rcases ih y with ⟨hres, hbound⟩ | ⟨l1, z, l2, hdec, hres, hyz, hl1, hball⟩
        · right
          refine ⟨[], y, ys, by simp, hres, hxy, by simp, ?_⟩
          intro w hw
          rcases List.mem_cons.mp hw with hwy | hwys
          · subst hwy; exact le_refl _
          · exact hbound w hwys
        · right
          refine ⟨y :: l1, z, l2, by rw [hdec, List.cons_append], hres,
            lt_trans hxy hyz, ?_, ?_⟩
          · intro w hw
            rcases List.mem_cons.mp hw with hwy | hwl1
            · subst hwy; exact hyz
            · exact hl1 w hwl1
          · intro w hw
            rcases List.mem_cons.mp hw with hwy | hwys
            · subst hwy; exact le_of_lt hyz
            · exact hball w (hdec ▸ hwys)
      · rw [if_neg hxy]
        rcases ih x with ⟨hres, hbound⟩ | ⟨l1, z, l2, hdec, hres, hxz, hl1, hball⟩
        · left
          refine ⟨hres, ?_⟩
          intro w hw
          rcases List.mem_cons.mp hw with hwy | hwys
          · subst hwy; exact not_lt.mp hxy
          · exact hbound w hwys
        · right
          refine ⟨y :: l1, z, l2, by rw [hdec, List.cons_append], hres, hxz,
            ?_, ?_⟩
          · intro w hw
            rcases List.mem_cons.mp hw with hwy | hwl1
            · subst hwy; exact lt_of_le_of_lt (not_lt.mp hxy) hxz
            · exact hl1 w hwl1
          · intro w hw
            rcases List.mem_cons.mp hw with hwy | hwys
            · subst hwy; exact le_trans (not_lt.mp hxy) (le_of_lt hxz)
            · exact hball w (hdec ▸ hwys)

/-- The head of the stable descending sort is the first element of the
original list attaining the maximal key: everything strictly before it is
strictly smaller, everything in the list is at most it. -/
theorem head_isortDesc_spec {β : Type} (key : β → α) (l : List β)
    (hne : l ≠ []) :
    ∃ l1 z l2, l = l1 ++ z :: l2 ∧ (isortDesc key l).head? = some z ∧
      (∀ w ∈ l1, key w < key z) ∧ ∀ w ∈ l, key w ≤ key z := by
  cases l with
  | nil => exact absurd rfl hne
  | cons x xs =>
      rw [head_isortDesc_cons]
      rcases foldl_scan_spec key xs x with ⟨hres, hbound⟩ |
        ⟨l1, z, l2, hdec, hres, hxz, hl1, hball⟩
      · refine ⟨[], x, xs, by simp, by rw [hres], by simp, ?_⟩
        intro w hw
        rcases List.mem_cons.mp hw with hwx | hwxs
        · subst hwx; exact le_refl _
        · exact hbound w hwxs
      · refine ⟨x :: l1, z, l2, by rw [hdec, List.cons_append], by rw [hres],
          ?_, ?_⟩
        · intro w hw
          rcases List.mem_cons.mp hw with hwx | hwl1
          · subst hwx; exact hxz
          · exact hl1 w hwl1
        · intro w hw
          rcases List.mem_cons.mp hw with hwx | hwxs
          · subst hwx; exact le_of_lt hxz
          · exact hball w (hdec ▸ hwxs)

/-! ### Lemmas about association-list lookup and the weight map -/

theorem lookupA_eq_none_iff {β : Type} (l : String) (m : List (String × β)) :
    lookupA l m = none ↔ l ∉ m.map Prod.fst := by
  induction m with
  | nil => simp [lookupA]
  | cons p rest ih =>
      cases p with
      | mk k v =>
          by_cases hk : k = l
          · subst hk; simp [lookupA]
          · have hlk : ¬ l = k := fun h => hk (Eq.symm h)
            simp only [lookupA, if_neg hk, List.map_cons, List.mem_cons]
            rw [ih]
            simp [hlk]

theorem lookupA_isSome_of_mem {β : Type} (l : String)
    (m : List (String × β)) (h : l ∈ m.map Prod.fst) :
    ∃ v, lookupA l m = some v := by
  cases hl : lookupA l m with
  | none => exact absurd h ((lookupA_eq_none_iff l m).mp hl)
  | some v => exact ⟨v, rfl⟩

theorem lookupA_append_left {β : Type} (l : String)
    (a b : List (String × β)) (v : β) (h : lookupA l a = some v) :
    lookupA l (a ++ b) = some v := by
  induction a with
  | nil => simp [lookupA] at h
  | cons p rest ih =>
      cases p with
      | mk k w =>
          by_cases hk : k = l
          · simp only [lookupA, if_pos hk] at h ⊢; exact h
          · simp only [lookupA, if_neg hk] at h ⊢
            exact ih h

theorem lookupA_append_right {β : Type} (l : String)
    (a b : List (String × β)) (h : lookupA l a = none) :
    lookupA l (a ++ b) = lookupA l b := by
  induction a with
  | nil => simp
  | cons p rest ih =>
      cases p with
      | mk k w =>
          by_cases hk : k = l
          · simp only [lookupA, if_pos hk] at h; exact absurd h (by simp)
          · simp only [lookupA, if_neg hk] at h ⊢
            exact ih h

theorem lookupA_dictInsert {β : Type} (k : String) (v : β) (l : String)
    (d : List (String × β)) :
    lookupA l (dictInsert k v d) = if k = l then some v else lookupA l d := by
  induction d with
  | nil => simp [dictInsert, lookupA]
  | cons p rest ih =>
      cases p with
      | mk k' v' =>
          by_cases hk : k' = k
          · subst hk
            simp only [dictInsert, if_pos rfl]
            by_cases hl : k' = l <;> simp [lookupA, hl]
          · simp only [dictInsert, if_neg hk]
            by_cases hl : k' = l
            · subst hl
              have hkl : ¬ k = k' := fun h => hk (Eq.symm h)
              simp [lookupA, hkl]
            · simp [lookupA, hl, ih]

theorem lookupA_foldl_dictInsert {β : Type} (ctx : List (String × β)) :
    ∀ (d : List (String × β)) (l : String),
      lookupA l (ctx.foldl (fun d p => dictInsert p.1 p.2 d) d) =
        if l ∈ ctx.map Prod.fst then lookupA l ctx.reverse
        else lookupA l d := by
  induction ctx with
  | nil => intro d l; simp
  | cons p rest ih =>
      intro d l
      cases p with
      | mk k v =>
          rw [List.foldl_cons, ih]
          by_cases hmem : l ∈ rest.map Prod.fst
          · rw [if_pos hmem, if_pos (by simp [hmem])]
            have hrev : l ∈ rest.reverse.map Prod.fst := by
              rw [List.map_reverse]; simpa using hmem
            rcases lookupA_isSome_of_mem l rest.reverse hrev with ⟨w, hw⟩
            rw [hw, List.reverse_cons,
              lookupA_append_left l rest.reverse [(k, v)] w hw]
          · rw [if_neg hmem, lookupA_dictInsert]
            have hrevnone : lookupA l rest.reverse = none := by
              rw [lookupA_eq_none_iff, List.map_reverse]
              simpa using hmem
            by_cases hk : k = l
            · subst hk
              rw [if_pos rfl, if_pos (by simp), List.reverse_cons,
                lookupA_append_right k rest.reverse [(k, v)] hrevnone]
              simp [lookupA]
            · have hlk : ¬ l = k := fun h => hk (Eq.symm h)
              rw [if_neg hk, if_neg (by simp [hmem, hlk])]

theorem lookupA_buildWeightMap {β : Type} (ctx : List (String × β))
    (l : String) : lookupA l (buildWeightMap ctx) = lookupA l ctx.reverse := by
  rw [buildWeightMap, lookupA_foldl_dictInsert]
  by_cases hmem : l ∈ ctx.map Prod.fst
  · rw [if_pos hmem]
  · rw [if_neg hmem, lookupA, Eq.comm, lookupA_eq_none_iff, List.map_reverse]
    simpa using hmem

theorem ctxWeight_eq_reverse_lookup (ctx : List (String × α)) (l : String) :
    ctxWeight ctx l = (lookupA l ctx.reverse).getD 0 := by
  rw [ctxWeight, lookupA_buildWeightMap]

theorem lookupA_filter {β : Type} (l : String) (pred : String × β → Bool)
    (xs : List (String × β)) (hkeep : ∀ p : String × β, p.1 = l → pred p = true) :
    lookupA l (xs.filter pred) = lookupA l xs := by
  induction xs with
  | nil => simp
  | cons p rest ih =>
      cases p with
      | mk k v =>
          by_cases hk : k = l
          · subst hk
            rw [List.filter_cons, if_pos (hkeep (k, v) rfl)]
            simp [lookupA]
          · rw [List.filter_cons]
            by_cases hp : pred (k, v) = true
            · rw [if_pos hp]
              simp [lookupA, hk, ih]
            · rw [if_neg hp, ih]
              simp [lookupA, hk]

theorem lookupA_middle {β : Type} (lbl l : String) (w : β)
    (xs ys : List (String × β)) (hne : lbl ≠ l) :
    lookupA lbl (xs ++ (l, w) :: ys) = lookupA lbl (xs ++ ys) := by
  induction xs with
  | nil =>
      have hln : ¬ l = lbl := fun h => hne (Eq.symm h)
      simp [lookupA, hln]
  | cons p rest ih =>
      cases p with
      | mk k v =>
          by_cases hk : k = lbl <;> simp [lookupA, hk, ih]

/-! ### Lemmas about `collapse` -/

theorem collapse_of_ne_nil (m : Mem α) (ctx : List (String × α))
    (hne : m ≠ []) :
    collapse m ctx =
      ((isortDesc Prod.fst (scoredList m ctx)).head?).map Prod.snd := by
  rw [collapse, if_neg (by simpa [List.isEmpty_iff] using hne)]

theorem scoredList_congr (m : Mem α) (ctx ctx' : List (String × α))
    (h : ∀ p ∈ m, ctxWeight ctx p.1 = ctxWeight ctx' p.1) :
    scoredList m ctx = scoredList m ctx' := by
  rw [scoredList, scoredList]
  exact List.map_congr_left fun p hp => by rw [scoreOf, scoreOf, h p hp]

theorem collapse_congr (m : Mem α) (ctx ctx' : List (String × α))
    (h : ∀ p ∈ m, ctxWeight ctx p.1 = ctxWeight ctx' p.1) :
    collapse m ctx = collapse m ctx' := by
  rw [collapse, collapse, scoredList_congr m ctx ctx' h]

theorem scoredList_ne_nil (m : Mem α) (ctx : List (String × α))
    (hne : m ≠ []) : scoredList m ctx ≠ [] := by
  rw [scoredList]
  simpa using hne

/-! ### Lemmas about `add` and sequences of `add` calls -/

theorem lookupA_add (k : String) (a : Cplx α) (m : Mem α) (l : String) :
    lookupA l (add k a m) =
      if k = l then some ((lookupA l m).getD 0 + a) else lookupA l m := by
  induction m with
  | nil =>
      by_cases hk : k = l <;>
        simp [add, lookupA, hk, Cplx.add_def, zero_add]
  | cons p rest ih =>
      cases p with
      | mk k' b =>
          by_cases hk' : k' = k
          · subst hk'
            by_cases hl : k' = l
            · subst hl
              simp [add, lookupA, Cplx.add_def]
            · simp [add, lookupA, hl]
          · by_cases hl : k' = l
            · subst hl
              have hkl : ¬ k = k' := fun h => hk' (Eq.symm h)
              simp [add, lookupA, hk', hkl]
            · simp [add, lookupA, hk', hl, ih]

theorem mem_keys_add (k : String) (a : Cplx α) (m : Mem α) (l : String) :
    l ∈ (add k a m).map Prod.fst ↔ l = k ∨ l ∈ m.map Prod.fst := by
  induction m with
  | nil => simp [add]
  | cons p rest ih =>
      cases p with
      | mk k' b =>
          by_cases hk' : k' = k
          · subst hk'
            rw [add, if_pos rfl]
            simp only [List.map_cons, List.mem_cons]
            tauto
          · rw [add, if_neg hk']
            simp only [List.map_cons, List.mem_cons, ih]
            tauto

theorem add_append_fresh (l : String) (a : Cplx α) (m : Mem α)
    (hfresh : l ∉ m.map Prod.fst) : add l a m = m ++ [(l, a)] := by
  induction m with
  | nil => simp [add]
  | cons p rest ih =>
      cases p with
      | mk k b =>
          simp only [List.map_cons, List.mem_cons] at hfresh
          push_neg at hfresh
          have hk : ¬ k = l := fun h => hfresh.1 (Eq.symm h)
          simp [add, hk, ih hfresh.2]

theorem lookupA_applyAdds (adds : List (String × Cplx α)) :
    ∀ (m : Mem α) (l : String),
      lookupA l (applyAdds m adds) =
        if l ∈ m.map Prod.fst ∨ l ∈ adds.map Prod.fst then
          some ((lookupA l m).getD 0 +
            ((adds.filter fun p => decide (p.1 = l)).map Prod.snd).sum)
        else none := by
  induction adds with
  | nil =>
      intro m l
      by_cases hm : l ∈ m.map Prod.fst
      · rcases lookupA_isSome_of_mem l m hm with ⟨v, hv⟩
        simp [applyAdds, hv, hm]
      · simp [applyAdds, hm, (lookupA_eq_none_iff l m).mpr hm]
  | cons q rest ih =>
      intro m l
      cases q with
      | mk k a =>
          have hstep : applyAdds m ((k, a) :: rest) = applyAdds (add k a m) rest := rfl
          rw [hstep, ih (add k a m) l]
          by_cases hk : k = l
          · subst hk
            have hmem : k ∈ (add k a m).map Prod.fst :=
              (mem_keys_add k a m k).mpr (Or.inl rfl)
            rw [if_pos (Or.inl hmem), if_pos (Or.inr (by simp))]
            rw [lookupA_add, if_pos rfl]
            rw [List.filter_cons, if_pos (by simp)]
            simp [add_assoc]
          · have hlk : ¬ l = k := fun h => hk (Eq.symm h)
            have hmem : l ∈ (add k a m).map Prod.fst ↔ l ∈ m.map Prod.fst := by
              rw [mem_keys_add]
              simp [hlk]
            have hcons : l ∈ ((k, a) :: rest).map Prod.fst ↔
                l ∈ rest.map Prod.fst := by
              simp [hlk]
            rw [lookupA_add, if_neg hk]
            by_cases hcond : l ∈ m.map Prod.fst ∨ l ∈ rest.map Prod.fst
            · rw [if_pos (hcond.imp hmem.mpr id), if_pos (hcond.imp id hcons.mpr)]
              simp [List.filter_cons, hk]
            · rw [if_neg (fun hc => hcond (hc.imp hmem.mp id)),
                if_neg (fun hc => hcond (hc.imp id hcons.mp))]

/-! ### Lemmas about `normalise` -/

theorem totalProbability_nonneg (m : Mem α) : 0 ≤ totalProbability m := by
  apply List.sum_nonneg
  intro x hx
  rcases List.mem_map.mp hx with ⟨p, _, hp⟩
  rw [← hp]
  exact Cplx.probMass_nonneg p.2

theorem totalProbability_eq_zero_iff (m : Mem α) :
    totalProbability m = 0 ↔ ∀ p ∈ m, p.2 = Cplx.zero := by
  induction m with
  | nil => simp [totalProbability]
  | cons q rest ih =>
      rw [totalProbability, List.map_cons, List.sum_cons]
      show Cplx.probMass q.2 + totalProbability rest = 0 ↔ _
      rw [add_eq_zero_iff_of_nonneg (Cplx.probMass_nonneg q.2)
        (totalProbability_nonneg rest)]
      rw [Cplx.probMass_eq_zero_iff]
      show _ ↔ ∀ p ∈ q :: rest, p.2 = Cplx.zero
      rw [List.forall_mem_cons]
      exact and_congr Iff.rfl ih

theorem totalProbability_map_divR (m : Mem ℝ) (s : ℝ) :
    totalProbability (m.map fun p => (p.1, Cplx.divR p.2 s)) =
      totalProbability m * (s ^ 2)⁻¹ := by
  rw [totalProbability, List.map_map]
  have : ((fun p : String × Cplx ℝ => Cplx.probMass p.2) ∘
      fun p : String × Cplx ℝ => (p.1, Cplx.divR p.2 s)) =
      fun p : String × Cplx ℝ => Cplx.probMass p.2 * (s ^ 2)⁻¹ := by
    funext p
    simp [Function.comp, Cplx.probMass_divR, div_eq_mul_inv]
  rw [this, List.sum_map_mul_right, ← totalProbability]

theorem normalise_of_ne_zero (m : Mem ℝ) (h : totalProbability m ≠ 0) :
    normalise m =
      (none, m.map fun p =>
        (p.1, Cplx.divR p.2 (Real.sqrt (totalProbability m)))) := by
  rw [normalise]
  simp only [if_neg h]

theorem normalise_of_eq_zero (m : Mem ℝ) (h : totalProbability m = 0) :
    normalise m = (some ("Cannot normalise an empty or zero-amplitude state"), m) := by
  rw [normalise]
  simp only [if_pos h]

/-! ### The stable sort commutes with key-order-preserving maps -/

theorem insertDesc_map {β γ : Type} (key1 : β → α) (key2 : γ → α)
    (f : β → γ) (hmono : ∀ a b, key2 (f a) < key2 (f b) ↔ key1 a < key1 b)
    (x : β) (l : List β) :
    insertDesc key2 (f x) (l.map f) = (insertDesc key1 x l).map f := by
  induction l with
  | nil => simp [insertDesc]
  | cons y ys ih =>
      rw [List.map_cons, insertDesc_cons, insertDesc_cons]
      by_cases h : key1 x < key1 y
      · rw [if_pos ((hmono x y).mpr h), if_pos h, List.map_cons, ih]
      · rw [if_neg (fun hc => h ((hmono x y).mp hc)), if_neg h]
        simp

theorem isortDesc_map {β γ : Type} (key1 : β → α) (key2 : γ → α)
    (f : β → γ) (hmono : ∀ a b, key2 (f a) < key2 (f b) ↔ key1 a < key1 b)
    (l : List β) :
    isortDesc key2 (l.map f) = (isortDesc key1 l).map f := by
  induction l with
  | nil => simp [isortDesc]
  | cons x xs ih =>
      rw [List.map_cons, isortDesc, isortDesc, ih,
        insertDesc_map key1 key2 f hmono]

/-- Shared helper: on a non-empty memory, `collapse` returns a hypothesis
taken from a stored entry whose score is maximal. -/
theorem collapse_spec_max (m : Mem α) (ctx : List (String × α))
    (hne : m ≠ []) :
    ∃ p₀ ∈ m, collapse m ctx = some ⟨p₀.1, p₀.2⟩ ∧
      ∀ p ∈ m, scoreOf ctx p ≤ scoreOf ctx p₀ := by
  obtain ⟨l1, z, l2, hdec, hhead, hl1, hball⟩ :=
    head_isortDesc_spec Prod.fst (scoredList m ctx) (scoredList_ne_nil m ctx hne)
  have hzmem : z ∈ scoredList m ctx := by rw [hdec]; simp
  rw [scoredList] at hzmem
  rcases List.mem_map.mp hzmem with ⟨p₀, hp₀m, hp₀⟩
  subst hp₀
  refine ⟨p₀, hp₀m, ?_, ?_⟩
  · rw [collapse_of_ne_nil m ctx hne, hhead]; rfl
  · intro p hp
    have hmem : (scoreOf ctx p, (⟨p.1, p.2⟩ : Hypothesis α)) ∈ scoredList m ctx := by
      rw [scoredList]
      exact List.mem_map_of_mem _ hp
    exact hball _ hmem

/-! ### Claim theorems -/

/-- Claim C1: for every non-empty memory state and every context sequence,
`collapse` returns a stored hypothesis whose score
`probability * (1 + weight)` is maximal among all stored hypotheses, the
weight being the context entry for its label (default 0), and context
pairs whose label is not stored have no effect on the result. -/
theorem collapse_returns_max_score (m : Mem α) (ctx : List (String × α))
    (hne : m ≠ []) :
    ∃ h, collapse m ctx = some h ∧ (h.label, h.amplitude) ∈ m ∧
      (∀ p ∈ m, scoreOf ctx p ≤ scoreOf ctx (h.label, h.amplitude)) ∧
      collapse m ctx =
        collapse m (ctx.filter fun q => decide (q.1 ∈ m.map Prod.fst)) := by
  obtain ⟨p₀, hp₀m, hcol, hmax⟩ := collapse_spec_max m ctx hne
  refine ⟨⟨p₀.1, p₀.2⟩, hcol, hp₀m, hmax, ?_⟩
  apply collapse_congr
  intro p hp
  rw [ctxWeight_eq_reverse_lookup, ctxWeight_eq_reverse_lookup,
    ← List.filter_reverse]
  rw [lookupA_filter p.1 _ ctx.reverse ?_]
  intro q hq
  rw [hq]
  exact decide_eq_true (List.mem_map_of_mem Prod.fst hp)

/-- Witness for C1 at a concrete memory and context: with amplitudes 1
and 2 and a context weight 3 on the first label the scores tie at 4. -/
theorem collapse_returns_max_score_witness :
    ∃ h, collapse ([("a", ⟨1, 0⟩), ("b", ⟨2, 0⟩)] : Mem ℚ) [("a", 3)] = some h ∧
      (h.label, h.amplitude) ∈ ([("a", ⟨1, 0⟩), ("b", ⟨2, 0⟩)] : Mem ℚ) ∧
      (∀ p ∈ ([("a", ⟨1, 0⟩), ("b", ⟨2, 0⟩)] : Mem ℚ),
        scoreOf [("a", 3)] p ≤ scoreOf [("a", 3)] (h.label, h.amplitude)) ∧
      collapse ([("a", ⟨1, 0⟩), ("b", ⟨2, 0⟩)] : Mem ℚ) [("a", 3)] =
        collapse ([("a", ⟨1, 0⟩), ("b", ⟨2, 0⟩)] : Mem ℚ)
          (([("a", 3)] : List (String × ℚ)).filter fun q =>
            decide (q.1 ∈ ([("a", ⟨1, 0⟩), ("b", ⟨2, 0⟩)] : Mem ℚ).map Prod.fst)) :=
  collapse_returns_max_score [("a", ⟨1, 0⟩), ("b", ⟨2, 0⟩)] [("a", 3)] (by decide)

/-- Claim C2: on ties of the maximal score, `collapse` returns the
hypothesis inserted first: the scored list in mapping-insertion order
splits as `l1 ++ z :: l2` with every score in `l1` strictly below the
winning score and every score at most it, and the stable-sort result
agrees with the strict greater-than scan. -/
theorem collapse_tie_break_first_inserted (m : Mem α)
    (ctx : List (String × α)) (hne : m ≠ []) :
    ∃ l1 z l2, scoredList m ctx = l1 ++ z :: l2 ∧
      collapse m ctx = some z.2 ∧
      (∀ w ∈ l1, w.1 < z.1) ∧
      (∀ w ∈ scoredList m ctx, w.1 ≤ z.1) ∧
      collapse m ctx = (scanFirstMax Prod.fst (scoredList m ctx)).map Prod.snd := by
  obtain ⟨l1, z, l2, hdec, hhead, hl1, hball⟩ :=
    head_isortDesc_spec Prod.fst (scoredList m ctx) (scoredList_ne_nil m ctx hne)
  refine ⟨l1, z, l2, hdec, ?_, hl1, hball, ?_⟩
  · rw [collapse_of_ne_nil m ctx hne, hhead]; rfl
  · rw [collapse_of_ne_nil m ctx hne, head_isortDesc_eq_scanFirstMax]

/-- Witness for C2 at a concrete tie: two stored hypotheses with equal
probability 1 and no context. -/
theorem collapse_tie_break_first_inserted_witness :
    ∃ l1 z l2,
      scoredList ([("a", ⟨1, 0⟩), ("b", ⟨1, 0⟩)] : Mem ℚ) [] = l1 ++ z :: l2 ∧
      collapse ([("a", ⟨1, 0⟩), ("b", ⟨1, 0⟩)] : Mem ℚ) [] = some z.2 ∧
      (∀ w ∈ l1, w.1 < z.1) ∧
      (∀ w ∈ scoredList ([("a", ⟨1, 0⟩), ("b", ⟨1, 0⟩)] : Mem ℚ) [], w.1 ≤ z.1) ∧
      collapse ([("a", ⟨1, 0⟩), ("b", ⟨1, 0⟩)] : Mem ℚ) [] =
        (scanFirstMax Prod.fst
          (scoredList ([("a", ⟨1, 0⟩), ("b", ⟨1, 0⟩)] : Mem ℚ) [])).map Prod.snd :=
  collapse_tie_break_first_inserted [("a", ⟨1, 0⟩), ("b", ⟨1, 0⟩)] [] (by decide)

/-- Claim C5: `collapse` fails exactly on the empty mapping, whatever the
context; in particular stored all-zero amplitudes do not make it fail. -/
theorem collapse_error_iff_empty (m : Mem α) (ctx : List (String × α)) :
    collapse m ctx = none ↔ m = [] := by
  by_cases hne : m = []
  · subst hne; simp [collapse]
  · have h1 : scoredList m ctx ≠ [] := scoredList_ne_nil m ctx hne
    have h2 : isortDesc Prod.fst (scoredList m ctx) ≠ [] := by
      intro h
      have hp := isortDesc_perm Prod.fst (scoredList m ctx)
      rw [h] at hp
      exact h1 hp.symm.eq_nil
    rcases List.exists_cons_of_ne_nil h2 with ⟨z, zs, hz⟩
    rw [collapse_of_ne_nil m ctx hne, hz]
    simp [hne]

/-- Witness for C5: a non-empty memory whose only amplitude is exactly
zero still collapses without error. -/
theorem collapse_error_iff_empty_witness :
    ¬ collapse ([("a", ⟨0, 0⟩)] : Mem ℚ) [] = none :=
  fun h => by cases (collapse_error_iff_empty ([("a", ⟨0, 0⟩)] : Mem ℚ) []).mp h

/-- Claim C8: `collapse` leaves the stored mapping exactly unchanged and
the returned hypothesis carries the original stored amplitude of the
winning label. -/
theorem collapse_non_destructive (m : Mem α) (ctx : List (String × α))
    (hne : m ≠ []) :
    (collapseRun m ctx).2 = m ∧
      ∃ h, (collapseRun m ctx).1 = some h ∧ (h.label, h.amplitude) ∈ m := by
  refine ⟨rfl, ?_⟩
  obtain ⟨p₀, hp₀m, hcol, _⟩ := collapse_spec_max m ctx hne
  exact ⟨⟨p₀.1, p₀.2⟩, hcol, hp₀m⟩

/-- Witness for C8 at a concrete memory. -/
theorem collapse_non_destructive_witness :
    (collapseRun ([("a", ⟨1, 2⟩), ("b", ⟨0, 1⟩)] : Mem ℚ) [("b", 5)]).2 =
      ([("a", ⟨1, 2⟩), ("b", ⟨0, 1⟩)] : Mem ℚ) ∧
      ∃ h, (collapseRun ([("a", ⟨1, 2⟩), ("b", ⟨0, 1⟩)] : Mem ℚ) [("b", 5)]).1 =
        some h ∧ (h.label, h.amplitude) ∈ ([("a", ⟨1, 2⟩), ("b", ⟨0, 1⟩)] : Mem ℚ) :=
  collapse_non_destructive [("a", ⟨1, 2⟩), ("b", ⟨0, 1⟩)] [("b", 5)] (by decide)

/-- Claim C6: after any sequence of `add` calls from the empty memory,
the amplitude stored at a label is the complex sum of all amplitudes
supplied for it; an entry exists exactly when the label was added; the
result is invariant under permuting the adds; and a first add of a fresh
label creates a new entry. -/
theorem add_accumulates_sum (adds : List (String × Cplx α)) (l : String) :
    (lookupA l (applyAdds ([] : Mem α) adds) = none ↔ l ∉ adds.map Prod.fst) ∧
    (l ∈ adds.map Prod.fst →
      lookupA l (applyAdds ([] : Mem α) adds) =
        some (((adds.filter fun p => decide (p.1 = l)).map Prod.snd).sum)) ∧
    (∀ adds', adds.Perm adds' →
      lookupA l (applyAdds ([] : Mem α) adds') =
        lookupA l (applyAdds ([] : Mem α) adds)) ∧
    (∀ (a : Cplx α) (m : Mem α), l ∉ m.map Prod.fst →
      add l a m = m ++ [(l, a)]) := by
  refine ⟨?_, ?_, ?_, fun a m hfresh => add_append_fresh l a m hfresh⟩
  · rw [lookupA_applyAdds]
    by_cases hmem : l ∈ adds.map Prod.fst <;> simp [hmem]
  · intro hmem
    rw [lookupA_applyAdds, if_pos (Or.inr hmem)]
    simp [lookupA]
  · intro adds' hperm
    rw [lookupA_applyAdds, lookupA_applyAdds]
    have hm : l ∈ adds'.map Prod.fst ↔ l ∈ adds.map Prod.fst :=
      ((hperm.map Prod.fst).mem_iff).symm
    have hsum : ((adds'.filter fun p => decide (p.1 = l)).map Prod.snd).sum =
        ((adds.filter fun p => decide (p.1 = l)).map Prod.snd).sum :=
      (List.Perm.sum_eq (((hperm.filter _).map Prod.snd))).symm
    rw [hsum]
    exact if_congr (or_congr Iff.rfl hm) rfl rfl

/-- Witness for C6: two adds to label a, one interleaved add to label b;
the stored amplitude at a is the sum of the two supplied amplitudes. -/
theorem add_accumulates_sum_witness :
    lookupA ("a")
      (applyAdds ([] : Mem ℚ) [("a", ⟨1, 0⟩), ("b", ⟨5, 5⟩), ("a", ⟨2, 1⟩)]) =
      some (((([("a", ⟨1, 0⟩), ("b", ⟨5, 5⟩), ("a", ⟨2, 1⟩)] :
          List (String × Cplx ℚ)).filter fun p =>
            decide (p.1 = "a")).map Prod.snd).sum) :=
  (add_accumulates_sum [("a", ⟨1, 0⟩), ("b", ⟨5, 5⟩), ("a", ⟨2, 1⟩)] "a").2.1
    (by decide)

/-- Claim C7: `as_ranked_list` returns one hypothesis per stored entry
(its length is the number of stored labels and the multiset of
label/amplitude pairs is exactly the stored mapping), sorted by
non-increasing probability, equal-probability entries keeping their
mapping order, and it returns `[]` on the empty memory. -/
theorem as_ranked_list_spec (m : Mem α) :
    (as_ranked_list m).length = m.length ∧
    ((as_ranked_list m).map fun h => (h.label, h.amplitude)).Perm m ∧
    List.Pairwise
      (fun a b => Hypothesis.probability b ≤ Hypothesis.probability a)
      (as_ranked_list m) ∧
    (∀ c : α,
      (as_ranked_list m).filter (fun h => decide (Hypothesis.probability h = c)) =
        (m.map fun p => (⟨p.1, p.2⟩ : Hypothesis α)).filter
          (fun h => decide (Hypothesis.probability h = c))) ∧
    as_ranked_list ([] : Mem α) = [] := by
  have perm0 : List.Perm (as_ranked_list m)
      (m.map fun p => (⟨p.1, p.2⟩ : Hypothesis α)) :=
    isortDesc_perm Hypothesis.probability _
  refine ⟨?_, ?_, ?_, ?_, rfl⟩
  · rw [perm0.length_eq, List.length_map]
  · have hback :
        ((m.map fun p => (⟨p.1, p.2⟩ : Hypothesis α)).map
          fun h => (h.label, h.amplitude)) = m := by
      rw [List.map_map]
      exact List.map_id m
    have hperm := perm0.map fun h => (h.label, h.amplitude)
    rw [hback] at hperm
    exact hperm
  · exact isortDesc_sorted Hypothesis.probability _
  · intro c
    exact filter_isortDesc Hypothesis.probability _ c

/-- Claim C10: only the last context pair for a label matters: the weight
looked up for a label is the last one written into the comprehension map
(first match in the reversed context), and removing an earlier duplicate
pair does not change the collapse result. -/
theorem collapse_last_duplicate_weight_wins (m : Mem α)
    (ctx ctx₁ ctx₂ : List (String × α)) (l : String) (w : α)
    (hlater : l ∈ ctx₂.map Prod.fst) :
    ctxWeight ctx l = (lookupA l ctx.reverse).getD 0 ∧
    collapse m (ctx₁ ++ (l, w) :: ctx₂) = collapse m (ctx₁ ++ ctx₂) := by
  refine ⟨ctxWeight_eq_reverse_lookup ctx l, ?_⟩
  apply collapse_congr
  intro p _
  rw [ctxWeight_eq_reverse_lookup, ctxWeight_eq_reverse_lookup]
  congr 1
  by_cases hpl : p.1 = l
  · rw [hpl]
    have hrev : l ∈ ctx₂.reverse.map Prod.fst := by
      rw [List.map_reverse]
      simpa using hlater
    rcases lookupA_isSome_of_mem l ctx₂.reverse hrev with ⟨v, hv⟩
    rw [List.reverse_append, List.reverse_append, List.reverse_cons,
      List.append_assoc,
      lookupA_append_left l ctx₂.reverse ([(l, w)] ++ ctx₁.reverse) v hv,
      lookupA_append_left l ctx₂.reverse ctx₁.reverse v hv]
  · rw [List.reverse_append, List.reverse_append, List.reverse_cons,
      List.append_assoc]
    exact lookupA_middle p.1 l w ctx₂.reverse ctx₁.reverse hpl

/-- Witness for C10: with context pairs (a,1) then (a,3), dropping the
earlier pair does not change the collapse result. -/
theorem collapse_last_duplicate_weight_wins_witness :
    ctxWeight ([("a", 1), ("a", 3)] : List (String × ℚ)) "a" =
      (lookupA ("a") ([("a", 1), ("a", 3)] : List (String × ℚ)).reverse).getD 0 ∧
    collapse ([("b", ⟨1, 0⟩)] : Mem ℚ)
        (([("x", 7)] : List (String × ℚ)) ++ ("a", 2) :: [("a", 3)]) =
      collapse ([("b", ⟨1, 0⟩)] : Mem ℚ)
        (([("x", 7)] : List (String × ℚ)) ++ [("a", 3)]) :=
  collapse_last_duplicate_weight_wins [("b", ⟨1, 0⟩)] [("a", 1), ("a", 3)]
    [("x", 7)] [("a", 3)] "a" 2 (by decide)

/-- Claim C3: on nonzero total probability mass, `normalise` succeeds,
divides every stored amplitude by the square root of the total mass, and
afterwards the probabilities sum to 1. -/
theorem normalise_scales_and_sums_to_one (m : Mem ℝ)
    (h : totalProbability m ≠ 0) :
    (normalise m).1 = none ∧
    (normalise m).2 =
      m.map (fun p => (p.1, Cplx.divR p.2 (Real.sqrt (totalProbability m)))) ∧
    totalProbability (normalise m).2 = 1 := by
  rw [normalise_of_ne_zero m h]
  refine ⟨rfl, rfl, ?_⟩
  rw [totalProbability_map_divR, Real.sq_sqrt (totalProbability_nonneg m),
    mul_inv_cancel₀ h]

/-- Witness for C3 at the one-entry memory with amplitude 1. -/
theorem normalise_scales_and_sums_to_one_witness :
    (normalise ([("a", ⟨1, 0⟩)] : Mem ℝ)).1 = none ∧
    (normalise ([("a", ⟨1, 0⟩)] : Mem ℝ)).2 =
      ([("a", ⟨1, 0⟩)] : Mem ℝ).map (fun p =>
        (p.1, Cplx.divR p.2
          (Real.sqrt (totalProbability ([("a", ⟨1, 0⟩)] : Mem ℝ))))) ∧
    totalProbability (normalise ([("a", ⟨1, 0⟩)] : Mem ℝ)).2 = 1 :=
  normalise_scales_and_sums_to_one [("a", ⟨1, 0⟩)]
    (by norm_num [totalProbability, Cplx.probMass, Cplx.conj, Cplx.mul])

/-- Claim C4: `normalise` raises the empty-state error exactly when the
total probability mass is zero, which happens exactly on the empty
mapping or when every stored amplitude is zero, and on the error branch
the stored state is unchanged. -/
theorem normalise_error_iff_zero_mass (m : Mem ℝ) :
    ((normalise m).1 ≠ none ↔ totalProbability m = 0) ∧
    (totalProbability m = 0 ↔ (m = [] ∨ ∀ p ∈ m, p.2 = Cplx.zero)) ∧
    (totalProbability m = 0 → (normalise m).2 = m) := by
  refine ⟨?_, ?_, ?_⟩
  · by_cases h : totalProbability m = 0
    · rw [normalise_of_eq_zero m h]
      simp [h]
    · rw [normalise_of_ne_zero m h]
      simp [h]
  · rw [totalProbability_eq_zero_iff]
    constructor
    · intro h
      exact Or.inr h
    · rintro (h | h)
      · subst h; simp
      · exact h
  · intro h
    rw [normalise_of_eq_zero m h]

/-- Witness for C4: a non-empty memory whose single amplitude is zero
raises the error and is left unchanged. -/
theorem normalise_error_iff_zero_mass_witness :
    ((normalise ([("a", ⟨0, 0⟩)] : Mem ℝ)).1 ≠ none) ∧
    (normalise ([("a", ⟨0, 0⟩)] : Mem ℝ)).2 = ([("a", ⟨0, 0⟩)] : Mem ℝ) :=
  ⟨(normalise_error_iff_zero_mass [("a", ⟨0, 0⟩)]).1.mpr
      (by norm_num [totalProbability, Cplx.probMass, Cplx.conj, Cplx.mul]),
    (normalise_error_iff_zero_mass [("a", ⟨0, 0⟩)]).2.2
      (by norm_num [totalProbability, Cplx.probMass, Cplx.conj, Cplx.mul])⟩

/-- Scaling every amplitude by one positive factor commutes with
`as_ranked_list`: probabilities scale by the square of the factor, so all
strict comparisons, and hence the stable sort, are unchanged. -/
theorem as_ranked_list_map_smulR (m : Mem ℝ) (c : ℝ) (hc : 0 < c) :
    as_ranked_list (m.map fun p => (p.1, Cplx.smulR c p.2)) =
      (as_ranked_list m).map fun hy =>
        (⟨hy.label, Cplx.smulR c hy.amplitude⟩ : Hypothesis ℝ) := by
  have hmono : ∀ a b : Hypothesis ℝ,
      Hypothesis.probability
          (⟨a.label, Cplx.smulR c a.amplitude⟩ : Hypothesis ℝ) <
        Hypothesis.probability
          (⟨b.label, Cplx.smulR c b.amplitude⟩ : Hypothesis ℝ) ↔
      Hypothesis.probability a < Hypothesis.probability b := by
    intro a b
    show Cplx.probMass (Cplx.smulR c a.amplitude) <
        Cplx.probMass (Cplx.smulR c b.amplitude) ↔ _
    rw [Cplx.probMass_smulR, Cplx.probMass_smulR]
    exact mul_lt_mul_left (pow_pos hc 2)
  rw [as_ranked_list, as_ranked_list, List.map_map]
  have hstep : (m.map ((fun p : String × Cplx ℝ => (⟨p.1, p.2⟩ : Hypothesis ℝ)) ∘
      fun p : String × Cplx ℝ => (p.1, Cplx.smulR c p.2))) =
      ((m.map fun p : String × Cplx ℝ => (⟨p.1, p.2⟩ : Hypothesis ℝ)).map
        fun hy : Hypothesis ℝ =>
          (⟨hy.label, Cplx.smulR c hy.amplitude⟩ : Hypothesis ℝ)) := by
    rw [List.map_map]
    rfl
  rw [hstep]
  exact isortDesc_map Hypothesis.probability Hypothesis.probability _ hmono _

/-- Claim C9: a successful `normalise` keeps the labels, multiplies every
amplitude by one positive real factor, and therefore `as_ranked_list`
produces the same ordering before and after (the ranked list after is the
entry-wise scaling of the ranked list before). -/
theorem normalise_preserves_ranking (m : Mem ℝ)
    (h : totalProbability m ≠ 0) :
    ∃ c : ℝ, 0 < c ∧
      (normalise m).2.map Prod.fst = m.map Prod.fst ∧
      (normalise m).2 = m.map (fun p => (p.1, Cplx.smulR c p.2)) ∧
      as_ranked_list (normalise m).2 =
        (as_ranked_list m).map fun hy =>
          (⟨hy.label, Cplx.smulR c hy.amplitude⟩ : Hypothesis ℝ) := by
  have hpos : 0 < totalProbability m :=
    lt_of_le_of_ne (totalProbability_nonneg m) (Ne.symm h)
  have hs : 0 < Real.sqrt (totalProbability m) := Real.sqrt_pos.mpr hpos
  have hcpos : 0 < (Real.sqrt (totalProbability m))⁻¹ := inv_pos.mpr hs
  have hmap : (normalise m).2 =
      m.map fun p =>
        (p.1, Cplx.smulR (Real.sqrt (totalProbability m))⁻¹ p.2) := by
    rw [normalise_of_ne_zero m h]
    exact List.map_congr_left fun p _ => by rw [Cplx.divR_eq_smulR]
  refine ⟨(Real.sqrt (totalProbability m))⁻¹, hcpos, ?_, hmap, ?_⟩
  · rw [hmap, List.map_map]
    rfl
  · rw [hmap, as_ranked_list_map_smulR m _ hcpos]

/-- Witness for C9 at the one-entry memory with amplitude 1. -/
theorem normalise_preserves_ranking_witness :
    ∃ c : ℝ, 0 < c ∧
      (normalise ([("a", ⟨1, 0⟩)] : Mem ℝ)).2.map Prod.fst =
        ([("a", ⟨1, 0⟩)] : Mem ℝ).map Prod.fst ∧
      (normalise ([("a", ⟨1, 0⟩)] : Mem ℝ)).2 =
        ([("a", ⟨1, 0⟩)] : Mem ℝ).map (fun p => (p.1, Cplx.smulR c p.2)) ∧
      as_ranked_list (normalise ([("a", ⟨1, 0⟩)] : Mem ℝ)).2 =
        (as_ranked_list ([("a", ⟨1, 0⟩)] : Mem ℝ)).map fun hy =>
          (⟨hy.label, Cplx.smulR c hy.amplitude⟩ : Hypothesis ℝ) :=
  normalise_preserves_ranking [("a", ⟨1, 0⟩)]
    (by norm_num [totalProbability, Cplx.probMass, Cplx.conj, Cplx.mul])

end SuperpositionMemory

end HNQA
